import Mathlib

/-!
# Verification of `image_splitter.py` (max-merrell/image-splitter)

Shallow embedding of `src/image_splitter.py` and proofs about its
line-detection algorithm `find_vertical_black_line_center` and the
split orchestrator `split_jpeg_in_half_by_line`.

Modelling conventions:
* A decoded grayscale image is a `GrayImage` (height, width, intensity grid);
  a failed decode (`cv2.imread` returning `None`, or any raised exception,
  which the source catches and converts to `return None`) is modelled by
  passing `none : Option GrayImage` to the detector.
* Python `int`s are `Int`; Python floats (`min_line_density`,
  `search_middle_fraction`) are modelled as exact rationals `Rat`;
  Python `//` is `Int.fdiv` (floor division) and `int(·)` is truncation
  toward zero.
* The two scanning loops (source lines 51–77 and 87–117) are modelled by the
  structurally recursive functions `scanFirst` and `scanSecond`, whose state
  is exactly the loop state of the source: `is_in_line`/`current_line_start`
  becomes an `Option Nat` (the start of the currently open run), plus the
  accumulated candidate list (first pass) or `max_line_width_found` /
  `best_line_center` (second pass).  The `n = 0` equations are the
  post-loop "line extends to the end of the search region" handling
  (source lines 68–73 and 108–115).
-/

namespace ImageSplitter

/-- A decoded grayscale image: `pixel r c` is the intensity sample (0–255)
at row `r`, column `c`.  Mirrors the `img_cv` array of the source. -/
structure GrayImage where
  height : Nat
  width : Nat
  pixel : Nat → Nat → Nat

/-- Number of black pixels in column `c`: pixels with intensity
`≤ black_threshold` (source lines 42–45: `cv2.threshold` with
`THRESH_BINARY` maps intensity `≤ black_threshold` to 0, and
`np.sum(binary_img == 0, axis=0)` counts those zeros per column). -/
def columnBlackCount (img : GrayImage) (black_threshold : Int) (c : Nat) : Nat :=
  (List.range img.height).countP (fun r => decide ((img.pixel r c : Int) ≤ black_threshold))

/-- Column density (source line 48: `column_sums / height`), as the exact
rational `columnBlackCount / height` (written with `mkRat`, which builds
exactly that quotient; see `columnDensity_eq_div`). -/
def columnDensity (img : GrayImage) (black_threshold : Int) (c : Nat) : Rat :=
  mkRat (columnBlackCount img black_threshold c : Int) img.height

/-- `columnDensity` is the rational quotient of the black-pixel count
by the image height, as in source line 48. -/
theorem columnDensity_eq_div (img : GrayImage) (black_threshold : Int) (c : Nat) :
    columnDensity img black_threshold c
      = (columnBlackCount img black_threshold c : Rat) / (img.height : Rat) := by
  rw [columnDensity, Rat.mkRat_eq_div]
  push_cast
  rfl

/-- Python `int(·)` applied to a rational value: truncation toward zero. -/
def intTrunc (q : Rat) : Int :=
  Int.tdiv q.num (q.den : Int)

/-- `search_width = int(width * search_middle_fraction)` (source line 32):
truncation toward zero of the exact product `width * frac`, written as the
quotient `(width * frac.num) / frac.den` (see `searchWidthZ_eq`). -/
def searchWidthZ (width : Nat) (frac : Rat) : Int :=
  intTrunc (mkRat ((width : Int) * frac.num) frac.den)

/-- `searchWidthZ` is the truncation of the product `width * frac`. -/
theorem searchWidthZ_eq (width : Nat) (frac : Rat) :
    searchWidthZ width frac = intTrunc ((width : Rat) * frac) := by
  unfold searchWidthZ
  congr 1
  rw [Rat.mkRat_eq_div]
  push_cast
  rw [mul_div_assoc, Rat.num_div_den]

/-- `search_start_x = (width - search_width) // 2` (source line 33, before clamping). -/
def searchStartRaw (width : Nat) (frac : Rat) : Int :=
  Int.fdiv ((width : Int) - searchWidthZ width frac) 2

/-- `search_end_x = search_start_x + search_width` (source line 34, before clamping). -/
def searchEndRaw (width : Nat) (frac : Rat) : Int :=
  searchStartRaw width frac + searchWidthZ width frac

/-- `search_start_x = max(0, search_start_x)` (source line 37), as a natural number. -/
def searchStartN (width : Nat) (frac : Rat) : Nat :=
  (max 0 (searchStartRaw width frac)).toNat

/-- `search_end_x = min(width, search_end_x)` (source line 38), as a natural number
(a negative end yields `0`, i.e. an empty scan range, exactly like Python's
`range(search_start_x, search_end_x)`). -/
def searchEndN (width : Nat) (frac : Rat) : Nat :=
  (min (width : Int) (searchEndRaw width frac)).toNat

/-- Number of columns scanned by `range(search_start_x, search_end_x)`. -/
def searchLen (width : Nat) (frac : Rat) : Nat :=
  searchEndN width frac - searchStartN width frac

/-- `column_densities[x] >= min_line_density` (source lines 56 and 94). -/
def colQual (img : GrayImage) (black_threshold : Int) (min_line_density : Rat) (x : Nat) : Bool :=
  decide (min_line_density ≤ columnDensity img black_threshold x)

/-- `line_width = current_line_end - current_line_start + 1` (source lines 63, 71,
101, 111), computed over the integers like the source. -/
def runWidthZ (r : Nat × Nat) : Int :=
  (r.2 : Int) - (r.1 : Int) + 1

/-- `(current_line_start + current_line_end) // 2` (source lines 65, 73, 105, 115). -/
def runMid (r : Nat × Nat) : Nat :=
  (r.1 + r.2) / 2

/-- First pass of the source (lines 51–73): scan columns `i, i+1, …` (with `n`
columns left), collecting the midpoints of all runs of qualifying columns whose
width is at least `min_line_width` into `potential_line_centers` (`acc`).
The state `st` is `some s` when `is_in_line` with `current_line_start = s`,
and `none` when not in a line.  The `n = 0` equations are the trailing-run
check of lines 68–73, closing an open run at `search_end_x - 1 = i - 1`. -/
def scanFirst (q : Nat → Bool) (minW : Int) : Nat → Nat → Option Nat → List Nat → List Nat
  | _, 0, none, acc => acc
  | i, 0, some s, acc =>
      if minW ≤ runWidthZ (s, i - 1) then acc ++ [runMid (s, i - 1)] else acc
  | i, n + 1, none, acc =>
      if q i then scanFirst q minW (i + 1) n (some i) acc
      else scanFirst q minW (i + 1) n none acc
  | i, n + 1, some s, acc =>
      if q i then scanFirst q minW (i + 1) n (some s) acc
      else
        scanFirst q minW (i + 1) n none
          (if minW ≤ runWidthZ (s, i - 1) then acc ++ [runMid (s, i - 1)] else acc)

/-- Second pass of the source (lines 87–117): the same scan, but updating
`max_line_width_found` (`m`) and `best_line_center` (`best`) whenever a closed
run has `line_width >= min_line_width` and `line_width > max_line_width_found`.
The `n = 0` equations are the trailing-run check of lines 108–115. -/
def scanSecond (q : Nat → Bool) (minW : Int) :
    Nat → Nat → Option Nat → Int → Option Nat → Option Nat
  | _, 0, none, _, best => best
  | i, 0, some s, m, best =>
      if minW ≤ runWidthZ (s, i - 1) ∧ m < runWidthZ (s, i - 1) then
        some (runMid (s, i - 1))
      else best
  | i, n + 1, none, m, best =>
      if q i then scanSecond q minW (i + 1) n (some i) m best
      else scanSecond q minW (i + 1) n none m best
  | i, n + 1, some s, m, best =>
      if q i then scanSecond q minW (i + 1) n (some s) m best
      else
        if minW ≤ runWidthZ (s, i - 1) ∧ m < runWidthZ (s, i - 1) then
          scanSecond q minW (i + 1) n none (runWidthZ (s, i - 1)) (some (runMid (s, i - 1)))
        else scanSecond q minW (i + 1) n none m best

/-- Lines 51–117 of the source: run the first pass; if no candidate was
collected return `None` (line 75–77); otherwise run the second pass and
return `best_line_center`. -/
def detectCore (q : Nat → Bool) (minW : Int) (s len : Nat) : Option Nat :=
  if (scanFirst q minW s len none []).isEmpty then none
  else scanSecond q minW s len none 0 none

/-- `find_vertical_black_line_center` (source lines 7–121).  The argument
`decoded` is the result of decoding `image_path`: `none` when
`cv2.imread` failed or any exception was raised (lines 25–27 and 119–121),
in which case the function returns `None`. -/
def find_vertical_black_line_center (decoded : Option GrayImage)
    (black_threshold : Int) (min_line_width : Int)
    (min_line_density : Rat) (search_middle_fraction : Rat) : Option Nat :=
  match decoded with
  | none => none
  | some img =>
      detectCore (colQual img black_threshold min_line_density) min_line_width
        (searchStartN img.width search_middle_fraction)
        (searchLen img.width search_middle_fraction)

/-- The split x-coordinate used by the orchestrator for one file
(source lines 149–159): the detected center, or the `width // 2` fallback
when detection returned `None`, then clamped by
`split_x = max(1, min(split_x, width - 1))`. -/
def splitPoint (width : Nat) (detected : Option Nat) : Nat :=
  let split_x := match detected with
    | none => width / 2
    | some c => c
  max 1 (min split_x (width - 1))

/-- One output file written by the orchestrator: its file name and the
column range `[cropLeft, cropRight)` of the crop it contains. -/
structure SavedImage where
  name : String
  cropLeft : Nat
  cropRight : Nat
  deriving DecidableEq

/-- The two files written for one input image (source lines 159–170):
the left half `img.crop((0, 0, split_x, height))` is saved under
`f"{base_name}(2){ext}"` and the right half
`img.crop((split_x, 0, width, height))` under `f"{base_name}(1){ext}"`. -/
def processFile (base_name ext : String) (width : Nat) (detected : Option Nat) :
    List SavedImage :=
  let split_x := splitPoint width detected
  [⟨base_name ++ "(2)" ++ ext, 0, split_x⟩,
   ⟨base_name ++ "(1)" ++ ext, split_x, width⟩]

/-- The per-folder counting loop of `split_jpeg_in_half_by_line`
(source lines 138–176): `processed_count` starts at 0 and is incremented
once per file whose `try:` block completes; a file whose processing raises
(`ok = false`) is caught by the `except` branch and the loop continues.
`outcomes` lists, per eligible file, whether its processing succeeded.
The returned value is the only count the function reports (lines 178–181). -/
def split_jpeg_processed_count (outcomes : List Bool) : Nat :=
  outcomes.foldl (fun acc ok => if ok then acc + 1 else acc) 0

/-! ## Run-list abstraction

`runsAux q i n st` lists the maximal contiguous runs of columns satisfying
`q` among the `n` columns `i, i+1, …, i+n-1`, as `(start, end)` pairs,
where `st = some s` means a run starting at `s` is currently open.
A run still open after the last column is closed at column `i + n - 1`,
exactly like the trailing-run handling of the source. -/

def runsAux (q : Nat → Bool) : Nat → Nat → Option Nat → List (Nat × Nat)
  | _, 0, none => []
  | i, 0, some s => [(s, i - 1)]
  | i, n + 1, none =>
      if q i then runsAux q (i + 1) n (some i) else runsAux q (i + 1) n none
  | i, n + 1, some s =>
      if q i then runsAux q (i + 1) n (some s)
      else (s, i - 1) :: runsAux q (i + 1) n none

/-- The maximal runs of qualifying columns in the search window of `img`. -/
def windowRuns (img : GrayImage) (black_threshold : Int)
    (min_line_density frac : Rat) : List (Nat × Nat) :=
  runsAux (colQual img black_threshold min_line_density)
    (searchStartN img.width frac) (searchLen img.width frac) none

/-- The runs of the search window that moreover satisfy the
`line_width >= min_line_width` requirement: the `LineCandidate`s of the spec. -/
def qualRuns (img : GrayImage) (black_threshold min_line_width : Int)
    (min_line_density frac : Rat) : List (Nat × Nat) :=
  (windowRuns img black_threshold min_line_density frac).filter
    (fun r => decide (min_line_width ≤ runWidthZ r))

/-- Selection of the best run from an explicit run list, with the source's
update rule (`line_width >= min_line_width` and
`line_width > max_line_width_found`). -/
def selOver (minW : Int) : List (Nat × Nat) → Int → Option Nat → Option Nat
  | [], _, best => best
  | r :: l, m, best =>
      if minW ≤ runWidthZ r ∧ m < runWidthZ r then
        selOver minW l (runWidthZ r) (some (runMid r))
      else selOver minW l m best

/-- The run that the source's best-run selection settles on, given the list of
runs still to be scanned and the current `max_line_width_found` `m`:
the first run that qualifies and beats `m`, unless a strictly wider
qualifying run follows it. -/
def chooseAux (minW : Int) : List (Nat × Nat) → Int → Option (Nat × Nat)
  | [], _ => none
  | r :: l, m =>
      if minW ≤ runWidthZ r ∧ m < runWidthZ r then
        some ((chooseAux minW l (runWidthZ r)).getD r)
      else chooseAux minW l m

/-! ## Spec-side definitions for the refinement claims -/

/-- The qualification predicate of the search window, padded with one
artificial below-threshold column at `stop`. -/
def colQualPadded (img : GrayImage) (black_threshold : Int)
    (min_line_density : Rat) (stop : Nat) (x : Nat) : Bool :=
  if x = stop then false else colQual img black_threshold min_line_density x

/-- The detector run on the search window extended by one artificial
below-threshold column at `search_end_x`: in this scan every run of the
original window closes strictly inside the scanned range, so the
trailing-run special case never fires. -/
def findPaddedWindow (decoded : Option GrayImage)
    (black_threshold : Int) (min_line_width : Int)
    (min_line_density : Rat) (search_middle_fraction : Rat) : Option Nat :=
  match decoded with
  | none => none
  | some img =>
      let s := searchStartN img.width search_middle_fraction
      let len := searchLen img.width search_middle_fraction
      detectCore (colQualPadded img black_threshold min_line_density (s + len))
        min_line_width s (len + 1)

/-- Modelled from the spec: §4.1 step 5, the single left-to-right scan that
tracks contiguous qualifying runs and records a closed run's midpoint as the
current best when its width is at least `min_line_width` and exceeds the best
width so far; a run still open when the window ends is closed and evaluated
the same way. -/
def specScanBest (q : Nat → Bool) (minW : Int) :
    Nat → Nat → Option Nat → Int → Option Nat → Option Nat
  | _, 0, none, _, best => best
  | i, 0, some s, m, best =>
      if minW ≤ runWidthZ (s, i - 1) ∧ m < runWidthZ (s, i - 1) then
        some (runMid (s, i - 1))
      else best
  | i, n + 1, none, m, best =>
      if q i then specScanBest q minW (i + 1) n (some i) m best
      else specScanBest q minW (i + 1) n none m best
  | i, n + 1, some s, m, best =>
      if q i then specScanBest q minW (i + 1) n (some s) m best
      else
        if minW ≤ runWidthZ (s, i - 1) ∧ m < runWidthZ (s, i - 1) then
          specScanBest q minW (i + 1) n none (runWidthZ (s, i - 1)) (some (runMid (s, i - 1)))
        else specScanBest q minW (i + 1) n none m best

/-- Modelled from the spec: the §4.1 detector as a single scan — decode
(`none` on failure, step 1), compute the search window (step 2), and run
one left-to-right best-width-so-far scan (steps 5–6), with no candidate
collection pass and no emptiness pre-check. -/
def detectSingleScan (decoded : Option GrayImage)
    (black_threshold : Int) (min_line_width : Int)
    (min_line_density : Rat) (search_middle_fraction : Rat) : Option Nat :=
  match decoded with
  | none => none
  | some img =>
      specScanBest (colQual img black_threshold min_line_density) min_line_width
        (searchStartN img.width search_middle_fraction)
        (searchLen img.width search_middle_fraction) none 0 none

/-! ## Concrete test images -/

/-- 1000×600 grayscale image whose columns 495–504 are entirely black and all
other columns white (the scenario of §8 of the spec). -/
def imgC3 : GrayImage :=
  ⟨600, 1000, fun _ c => if 495 ≤ c ∧ c ≤ 504 then 0 else 255⟩

/-- 100×2 image with two fully black runs in the search window `[40, 60)`:
columns 41–45 (width 5) and columns 50–55 (width 6). -/
def imgTwoRuns : GrayImage :=
  ⟨2, 100, fun _ c => if (41 ≤ c ∧ c ≤ 45) ∨ (50 ≤ c ∧ c ≤ 55) then 0 else 255⟩

/-- 50×2 image with one fully black run, columns 23–29, inside the search
window `[20, 30)`. -/
def imgOneRun : GrayImage :=
  ⟨2, 50, fun _ c => if 23 ≤ c ∧ c ≤ 29 then 0 else 255⟩

/-- 4×1 all-white image; at the default fraction its search window is empty
(`int(4 * 0.2) = 0`). -/
def imgTiny : GrayImage :=
  ⟨1, 4, fun _ _ => 255⟩

/-- 10×2 all-white image. -/
def imgWhiteSmall : GrayImage :=
  ⟨2, 10, fun _ _ => 255⟩

/-- 1×1 all-white image. -/
def imgWhiteOne : GrayImage :=
  ⟨1, 1, fun _ _ => 255⟩

/-! ## Bridge lemmas: the imperative scans compute a selection over the run list -/

theorem scanSecond_eq_selOver (q : Nat → Bool) (minW : Int) :
    ∀ n i st m best,
      scanSecond q minW i n st m best = selOver minW (runsAux q i n st) m best := by
  intro n
  induction n with
  | zero =>
      intro i st m best
      cases st with
      | none => rfl
      | some s =>
          simp only [scanSecond, runsAux, selOver]
  | succ n ih =>
      intro i st m best
      cases st with
      | none =>
          cases hq : q i with
          | true => simp [scanSecond, runsAux, hq, ih]
          | false => simp [scanSecond, runsAux, hq, ih]
      | some s =>
          cases hq : q i with
          | true => simp [scanSecond, runsAux, hq, ih]
          | false =>
              simp only [scanSecond, runsAux, selOver, hq, Bool.false_eq_true, if_false]
              split <;> simp [ih]

theorem selOver_eq_choose (minW : Int) :
    ∀ (l : List (Nat × Nat)) (m : Int) (best : Option Nat),
      selOver minW l m best
        = (chooseAux minW l m).elim best (fun r => some (runMid r)) := by
  intro l
  induction l with
  | nil => intro m best; rfl
  | cons r l ih =>
      intro m best
      by_cases h : minW ≤ runWidthZ r ∧ m < runWidthZ r
      · simp only [selOver, chooseAux, if_pos h]
        rw [ih]
        cases hc : chooseAux minW l (runWidthZ r) <;> simp [hc]
      · simp only [selOver, chooseAux, if_neg h]
        exact ih m best

theorem scanFirst_eq (q : Nat → Bool) (minW : Int) :
    ∀ n i st acc,
      scanFirst q minW i n st acc
        = acc ++ (runsAux q i n st).filterMap
            (fun r => if minW ≤ runWidthZ r then some (runMid r) else none) := by
  intro n
  induction n with
  | zero =>
      intro i st acc
      cases st with
      | none => simp [scanFirst, runsAux]
      | some s =>
          simp only [scanFirst, runsAux, List.filterMap]
          split <;> simp_all
  | succ n ih =>
      intro i st acc
      cases st with
      | none =>
          cases hq : q i with
          | true => simp [scanFirst, runsAux, hq, ih]
          | false => simp [scanFirst, runsAux, hq, ih]
      | some s =>
          cases hq : q i with
          | true => simp [scanFirst, runsAux, hq, ih]
          | false =>
              simp only [scanFirst, runsAux, hq, Bool.false_eq_true, if_false]
              rw [ih, List.filterMap_cons]
              by_cases hw : minW ≤ runWidthZ (s, i - 1) <;> simp [hw]

theorem chooseAux_eq_none_iff (minW : Int) :
    ∀ (l : List (Nat × Nat)) (m : Int),
      chooseAux minW l m = none
        ↔ ∀ r ∈ l, ¬(minW ≤ runWidthZ r ∧ m < runWidthZ r) := by
  intro l
  induction l with
  | nil => simp [chooseAux]
  | cons r l ih =>
      intro m
      by_cases h : minW ≤ runWidthZ r ∧ m < runWidthZ r
      · simp only [chooseAux, if_pos h]
        constructor
        · intro hc; exact absurd hc (Option.some_ne_none _)
        · intro hall; exact absurd h (hall r (List.mem_cons_self r l))
      · simp only [chooseAux, if_neg h, ih]
        constructor
        · intro hall r' hr'
          rcases List.mem_cons.mp hr' with rfl | hr'
          · exact h
          · exact hall r' hr'
        · intro hall r' hr'
          exact hall r' (List.mem_cons_of_mem r hr')

/-! ## Structural facts about the run list -/

theorem runsAux_bounds (q : Nat → Bool) :
    ∀ (n i : Nat) (st : Option Nat) (lo : Nat),
      (st = none → lo ≤ i) → (∀ s, st = some s → lo ≤ s ∧ s < i) →
      ∀ r ∈ runsAux q i n st, lo ≤ r.1 ∧ r.1 ≤ r.2 ∧ r.2 < i + n := by
  intro n
  induction n with
  | zero =>
      intro i st lo h0 h1 r hr
      cases st with
      | none => simp [runsAux] at hr
      | some s =>
          simp only [runsAux, List.mem_singleton] at hr
          subst hr
          obtain ⟨hls, hsi⟩ := h1 s rfl
          dsimp only
          omega
  | succ n ih =>
      intro i st lo h0 h1 r hr
      cases st with
      | none =>
          rw [runsAux] at hr
          by_cases hq : q i = true
          · rw [if_pos hq] at hr
            have := ih (i + 1) (some i) lo (by simp)
              (by intro s hs; cases hs; exact ⟨h0 rfl, by omega⟩) r hr
            omega
          · rw [if_neg hq] at hr
            have := ih (i + 1) none lo (fun _ => by have := h0 rfl; omega)
              (by simp) r hr
            omega
      | some s =>
          rw [runsAux] at hr
          by_cases hq : q i = true
          · rw [if_pos hq] at hr
            have := ih (i + 1) (some s) lo (by simp)
              (by intro s' hs'; cases hs'; have := h1 s rfl; omega) r hr
            omega
          · rw [if_neg hq] at hr
            rcases List.mem_cons.mp hr with rfl | hr
            · obtain ⟨hls, hsi⟩ := h1 s rfl
              dsimp only
              omega
            · have := ih (i + 1) none lo
                (fun _ => by obtain ⟨_, hsi⟩ := h1 s rfl; omega) (by simp) r hr
              omega

theorem runsAux_width_pos (q : Nat → Bool) (n i : Nat) :
    ∀ r ∈ runsAux q i n none, 0 < runWidthZ r := by
  intro r hr
  have := runsAux_bounds q n i none i (fun _ => le_refl i) (by simp) r hr
  unfold runWidthZ
  omega

theorem runsAux_pairwise (q : Nat → Bool) :
    ∀ (n i : Nat) (st : Option Nat), (∀ s, st = some s → s < i) →
      (runsAux q i n st).Pairwise (fun a b => a.1 < b.1) := by
  intro n
  induction n with
  | zero =>
      intro i st h1
      cases st with
      | none => simp [runsAux]
      | some s => simp [runsAux]
  | succ n ih =>
      intro i st h1
      cases st with
      | none =>
          rw [runsAux]
          by_cases hq : q i = true
          · rw [if_pos hq]
            exact ih (i + 1) (some i) (by intro s hs; cases hs; omega)
          · rw [if_neg hq]
            exact ih (i + 1) none (by simp)
      | some s =>
          rw [runsAux]
          by_cases hq : q i = true
          · rw [if_pos hq]
            exact ih (i + 1) (some s) (by intro s' hs'; cases hs'; have := h1 s rfl; omega)
          · rw [if_neg hq]
            refine List.pairwise_cons.mpr ⟨?_, ih (i + 1) none (by simp)⟩
            intro r' hr'
            have hb := runsAux_bounds q n (i + 1) none (i + 1)
              (fun _ => le_refl _) (by simp) r' hr'
            have := h1 s rfl
            dsimp only
            omega

theorem chooseAux_spec (minW : Int) :
    ∀ (l : List (Nat × Nat)) (m : Int) (r : Nat × Nat),
      chooseAux minW l m = some r →
      ∃ l1 l2, l = l1 ++ r :: l2 ∧ minW ≤ runWidthZ r ∧ m < runWidthZ r ∧
        (∀ x ∈ l1, minW ≤ runWidthZ x → runWidthZ x < runWidthZ r) ∧
        (∀ x ∈ l2, minW ≤ runWidthZ x → runWidthZ x ≤ runWidthZ r) := by
  intro l
  induction l with
  | nil =>
      intro m r hc
      exact absurd hc (by simp [chooseAux])
  | cons x l ih =>
      intro m r hc
      by_cases h : minW ≤ runWidthZ x ∧ m < runWidthZ x
      · rw [chooseAux, if_pos h] at hc
        cases hcl : chooseAux minW l (runWidthZ x) with
        | none =>
            rw [hcl] at hc
            obtain rfl : x = r := by simpa using hc
            refine ⟨[], l, by simp, h.1, h.2, by simp, ?_⟩
            intro y hy hqy
            have hny := (chooseAux_eq_none_iff minW l (runWidthZ x)).mp hcl y hy
            have : ¬ runWidthZ x < runWidthZ y := fun hlt => hny ⟨hqy, hlt⟩
            omega
        | some r' =>
            rw [hcl] at hc
            obtain rfl : r' = r := by simpa using hc
            obtain ⟨l1, l2, hsplit, hq', hm', hl1, hl2⟩ := ih (runWidthZ x) r' hcl
            refine ⟨x :: l1, l2, by rw [hsplit]; rfl, hq', lt_trans h.2 hm', ?_, hl2⟩
            intro y hy hqy
            rcases List.mem_cons.mp hy with rfl | hy
            · exact hm'
            · exact hl1 y hy hqy
      · rw [chooseAux, if_neg h] at hc
        obtain ⟨l1, l2, hsplit, hq', hm', hl1, hl2⟩ := ih m r hc
        refine ⟨x :: l1, l2, by rw [hsplit]; rfl, hq', hm', ?_, hl2⟩
        intro y hy hqy
        rcases List.mem_cons.mp hy with rfl | hy
        · have hyle : ¬ m < runWidthZ y := fun hlt => h ⟨hqy, hlt⟩
          omega
        · exact hl1 y hy hqy

/-! ## The detector as a selection over the run list -/

theorem detectCore_eq_choose (q : Nat → Bool) (minW : Int) (s len : Nat) :
    detectCore q minW s len
      = Option.map runMid (chooseAux minW (runsAux q s len none) 0) := by
  unfold detectCore
  rw [scanFirst_eq, List.nil_append]
  by_cases hE : (runsAux q s len none).filterMap
      (fun r => if minW ≤ runWidthZ r then some (runMid r) else none) = []
  · have hnone : chooseAux minW (runsAux q s len none) 0 = none := by
      rw [chooseAux_eq_none_iff]
      intro r hr hcon
      have := List.filterMap_eq_nil_iff.mp hE r hr
      rw [if_pos hcon.1] at this
      exact Option.some_ne_none _ this
    rw [hE, hnone]
    rfl
  · rw [if_neg (by simpa [List.isEmpty_iff] using hE)]
    rw [scanSecond_eq_selOver, selOver_eq_choose]
    cases chooseAux minW (runsAux q s len none) 0 <;> rfl

theorem find_some_eq (img : GrayImage) (black_threshold min_line_width : Int)
    (min_line_density search_middle_fraction : Rat) :
    find_vertical_black_line_center (some img) black_threshold min_line_width
        min_line_density search_middle_fraction
      = Option.map runMid
          (chooseAux min_line_width
            (windowRuns img black_threshold min_line_density search_middle_fraction) 0) :=
  detectCore_eq_choose _ _ _ _

theorem runsAux_all_false (q : Nat → Bool) :
    ∀ n i, (∀ x, i ≤ x → x < i + n → q x = false) → runsAux q i n none = [] := by
  intro n
  induction n with
  | zero => intro i _; rfl
  | succ n ih =>
      intro i h
      rw [runsAux, if_neg (by simp [h i (le_refl i) (by omega)])]
      exact ih (i + 1) (fun x hx1 hx2 => h x (by omega) (by omega))

theorem runsAux_pad (q qp : Nat → Bool) :
    ∀ n i st, (∀ x, x < i + n → qp x = q x) → qp (i + n) = false →
      runsAux qp i (n + 1) st = runsAux q i n st := by
  intro n
  induction n with
  | zero =>
      intro i st hagree hstop
      have hq : qp i = false := by simpa using hstop
      cases st with
      | none =>
          conv_lhs => rw [runsAux]
          rw [if_neg (by simp [hq])]
          rfl
      | some s =>
          conv_lhs => rw [runsAux]
          rw [if_neg (by simp [hq])]
          rfl
  | succ n ih =>
      intro i st hagree hstop
      have hqi : qp i = q i := hagree i (by omega)
      have hagree' : ∀ x, x < (i + 1) + n → qp x = q x := fun x hx => hagree x (by omega)
      have hstop' : qp ((i + 1) + n) = false := by
        have hsum : (i + 1) + n = i + (n + 1) := by omega
        rw [hsum]
        exact hstop
      cases st with
      | none =>
          rw [runsAux]
          conv_rhs => rw [runsAux]
          rw [hqi]
          by_cases hq : q i = true
          · rw [if_pos hq, if_pos hq]
            exact ih (i + 1) (some i) hagree' hstop'
          · rw [if_neg hq, if_neg hq]
            exact ih (i + 1) none hagree' hstop'
      | some s =>
          rw [runsAux]
          conv_rhs => rw [runsAux]
          rw [hqi]
          by_cases hq : q i = true
          · rw [if_pos hq, if_pos hq]
            exact ih (i + 1) (some s) hagree' hstop'
          · rw [if_neg hq, if_neg hq]
            rw [ih (i + 1) none hagree' hstop']

theorem specScanBest_eq_scanSecond (q : Nat → Bool) (minW : Int) :
    ∀ n i st m best,
      specScanBest q minW i n st m best = scanSecond q minW i n st m best := by
  intro n
  induction n with
  | zero =>
      intro i st m best
      cases st <;> rfl
  | succ n ih =>
      intro i st m best
      cases st with
      | none =>
          simp only [specScanBest, scanSecond]
          by_cases hq : q i = true
          · rw [if_pos hq, if_pos hq]
            exact ih (i + 1) (some i) m best
          · rw [if_neg hq, if_neg hq]
            exact ih (i + 1) none m best
      | some s =>
          simp only [specScanBest, scanSecond]
          by_cases hq : q i = true
          · rw [if_pos hq, if_pos hq]
            exact ih (i + 1) (some s) m best
          · rw [if_neg hq, if_neg hq]
            by_cases hw : minW ≤ runWidthZ (s, i - 1) ∧ m < runWidthZ (s, i - 1)
            · rw [if_pos hw, if_pos hw]
              exact ih (i + 1) none (runWidthZ (s, i - 1)) (some (runMid (s, i - 1)))
            · rw [if_neg hw, if_neg hw]
              exact ih (i + 1) none m best

/-! ## Interval lemmas for evaluating the run list blockwise -/

theorem runsAux_skip_false (q : Nat → Bool) :
    ∀ (k n i : Nat), (∀ x, i ≤ x → x < i + k → q x = false) →
      runsAux q i (k + n) none = runsAux q (i + k) n none := by
  intro k
  induction k with
  | zero =>
      intro n i _
      rw [Nat.zero_add, Nat.add_zero]
  | succ k ih =>
      intro n i h
      rw [show (k + 1) + n = (k + n) + 1 by omega, runsAux,
        if_neg (by simp [h i (le_refl i) (by omega)])]
      rw [ih n (i + 1) (fun x hx1 hx2 => h x (by omega) (by omega))]
      have heq : (i + 1) + k = i + (k + 1) := by omega
      rw [heq]

theorem runsAux_over_true (q : Nat → Bool) :
    ∀ (k n i s : Nat), (∀ x, i ≤ x → x < i + k → q x = true) →
      runsAux q i (k + n) (some s) = runsAux q (i + k) n (some s) := by
  intro k
  induction k with
  | zero =>
      intro n i s _
      rw [Nat.zero_add, Nat.add_zero]
  | succ k ih =>
      intro n i s h
      rw [show (k + 1) + n = (k + n) + 1 by omega, runsAux,
        if_pos (h i (le_refl i) (by omega))]
      rw [ih n (i + 1) s (fun x hx1 hx2 => h x (by omega) (by omega))]
      have heq : (i + 1) + k = i + (k + 1) := by omega
      rw [heq]

theorem runsAux_enter_true (q : Nat → Bool) (k n i : Nat) (hk : 0 < k)
    (h : ∀ x, i ≤ x → x < i + k → q x = true) :
    runsAux q i (k + n) none = runsAux q (i + k) n (some i) := by
  obtain ⟨k', rfl⟩ : ∃ k', k = k' + 1 := ⟨k - 1, by omega⟩
  rw [show (k' + 1) + n = (k' + n) + 1 by omega, runsAux,
    if_pos (h i (le_refl i) (by omega))]
  rw [runsAux_over_true q k' n (i + 1) i (fun x hx1 hx2 => h x (by omega) (by omega))]
  have heq : (i + 1) + k' = i + (k' + 1) := by omega
  rw [heq]

theorem runsAux_close_false (q : Nat → Bool) (k n i s : Nat) (hk : 0 < k)
    (h : ∀ x, i ≤ x → x < i + k → q x = false) :
    runsAux q i (k + n) (some s) = (s, i - 1) :: runsAux q (i + k) n none := by
  obtain ⟨k', rfl⟩ : ∃ k', k = k' + 1 := ⟨k - 1, by omega⟩
  rw [show (k' + 1) + n = (k' + n) + 1 by omega, runsAux,
    if_neg (by simp [h i (le_refl i) (by omega)])]
  rw [runsAux_skip_false q k' n (i + 1) (fun x hx1 hx2 => h x (by omega) (by omega))]
  have heq : (i + 1) + k' = i + (k' + 1) := by omega
  rw [heq]

/-! ## Column classification of the 1000×600 scenario image -/

theorem imgC3_q_true (x : Nat) (h1 : 495 ≤ x) (h2 : x ≤ 504) :
    colQual imgC3 25 (mkRat 95 100) x = true := by
  have hcount : columnBlackCount imgC3 25 x = 600 := by
    have hp : ∀ r ∈ List.range imgC3.height,
        (decide ((imgC3.pixel r x : Int) ≤ 25)) = true ↔ (fun (_ : Nat) => true) r = true := by
      intro r _
      have hpix : imgC3.pixel r x = 0 := by
        show (if 495 ≤ x ∧ x ≤ 504 then 0 else 255) = 0
        rw [if_pos ⟨h1, h2⟩]
      rw [hpix]
      simp
    unfold columnBlackCount
    rw [List.countP_congr hp, List.countP_true, List.length_range]
    rfl
  unfold colQual columnDensity
  rw [hcount]
  decide

theorem imgC3_q_false (x : Nat) (h : x < 495 ∨ 504 < x) :
    colQual imgC3 25 (mkRat 95 100) x = false := by
  have hcount : columnBlackCount imgC3 25 x = 0 := by
    have hp : ∀ r ∈ List.range imgC3.height,
        (decide ((imgC3.pixel r x : Int) ≤ 25)) = true ↔ (fun (_ : Nat) => false) r = true := by
      intro r _
      have hpix : imgC3.pixel r x = 255 := by
        show (if 495 ≤ x ∧ x ≤ 504 then 0 else 255) = 255
        rw [if_neg (by omega)]
      rw [hpix]
      simp
    unfold columnBlackCount
    rw [List.countP_congr hp, List.countP_false]
    rfl
  unfold colQual columnDensity
  rw [hcount]
  decide

theorem imgC3_windowRuns :
    windowRuns imgC3 25 (mkRat 95 100) (mkRat 2 10) = [(495, 504)] := by
  have hw : imgC3.width = 1000 := rfl
  have hs : searchStartN 1000 (mkRat 2 10) = 400 := by decide
  have hl : searchLen 1000 (mkRat 2 10) = 200 := by decide
  have hq1 : ∀ x, 400 ≤ x → x < 400 + 95 → colQual imgC3 25 (mkRat 95 100) x = false :=
    fun x _ h2 => imgC3_q_false x (by omega)
  have hq2 : ∀ x, 495 ≤ x → x < 495 + 10 → colQual imgC3 25 (mkRat 95 100) x = true :=
    fun x h1 h2 => imgC3_q_true x h1 (by omega)
  have hq3 : ∀ x, 505 ≤ x → x < 505 + 95 → colQual imgC3 25 (mkRat 95 100) x = false :=
    fun x h1 _ => imgC3_q_false x (by omega)
  unfold windowRuns
  rw [hw, hs, hl]
  rw [show (200 : Nat) = 95 + (10 + (95 + 0)) from rfl]
  rw [runsAux_skip_false _ 95 _ 400 hq1]
  rw [show (400 : Nat) + 95 = 495 from rfl]
  rw [runsAux_enter_true _ 10 _ 495 (by omega) hq2]
  rw [show (495 : Nat) + 10 = 505 from rfl]
  rw [runsAux_close_false _ 95 0 505 495 (by omega) hq3]
  rfl

/-! ## Claim theorems -/

/-- C2: a qualifying run still open when the scan reaches the end of the
search window is closed at column `search_end_x - 1` and evaluated with
exactly the same width and midpoint rules as a run ending strictly inside
the window, and is never dropped: the detector's result is unchanged when
the window is extended by one artificial below-threshold column at
`search_end_x`, which turns every trailing run into an interior run
(closed, as before, at column `search_end_x - 1`). -/
theorem trailing_run_handled_as_interior (decoded : Option GrayImage)
    (black_threshold min_line_width : Int) (min_line_density frac : Rat) :
    find_vertical_black_line_center decoded black_threshold min_line_width
        min_line_density frac
      = findPaddedWindow decoded black_threshold min_line_width min_line_density frac := by
  cases decoded with
  | none => rfl
  | some img =>
      have hpad : runsAux
          (colQualPadded img black_threshold min_line_density
            (searchStartN img.width frac + searchLen img.width frac))
          (searchStartN img.width frac) (searchLen img.width frac + 1) none
          = runsAux (colQual img black_threshold min_line_density)
              (searchStartN img.width frac) (searchLen img.width frac) none := by
        apply runsAux_pad
        · intro x hx
          unfold colQualPadded
          rw [if_neg (by omega)]
        · unfold colQualPadded
          rw [if_pos rfl]
      simp only [find_vertical_black_line_center, findPaddedWindow]
      rw [detectCore_eq_choose, detectCore_eq_choose, hpad]

/-- C9: the implemented two-pass procedure (first pass collecting the
midpoints of all qualifying runs, then an emptiness check, then a second
pass selecting the widest run) returns exactly the same result as the
single left-to-right best-width-so-far scan specified in §4.1. -/
theorem two_pass_equals_single_scan (decoded : Option GrayImage)
    (black_threshold min_line_width : Int) (min_line_density frac : Rat) :
    find_vertical_black_line_center decoded black_threshold min_line_width
        min_line_density frac
      = detectSingleScan decoded black_threshold min_line_width min_line_density frac := by
  cases decoded with
  | none => rfl
  | some img =>
      simp only [find_vertical_black_line_center, detectSingleScan]
      rw [specScanBest_eq_scanSecond, detectCore_eq_choose,
        scanSecond_eq_selOver, selOver_eq_choose]
      cases chooseAux min_line_width
          (runsAux (colQual img black_threshold min_line_density)
            (searchStartN img.width frac) (searchLen img.width frac) none) 0 <;> rfl

/-- C6: when decoding fails (unreadable, corrupt, or non-image input —
modelled as `none`, the value the caught exception paths of the source
produce), the detector returns `None` for every parameter choice; as a total
Lean function it propagates no exception. -/
theorem decode_failure_returns_none
    (black_threshold min_line_width : Int) (min_line_density frac : Rat) :
    find_vertical_black_line_center none black_threshold min_line_width
      min_line_density frac = none := rfl

/-- C5 counterexample: the claim asserts the post-clamp invariant
`1 ≤ split_x ≤ width - 1` and a positive-width right half for every
`width ≥ 1`, but at `width = 1` (detection `None`) the clamped split is 1,
`width - 1 = 0`, so `split_x ≤ width - 1` fails and the right half
`[split_x, width)` is empty. -/
theorem clamp_invariant_fails_at_width_one :
    splitPoint 1 none = 1 ∧ ¬(splitPoint 1 none ≤ 1 - 1)
      ∧ 1 - splitPoint 1 none = 0 := by decide

/-- C5 amended: for every processed image of width ≥ 2 and every detected or
fallback split value, after the clamp `split_x = max(1, min(split_x, width - 1))`
the invariant `1 ≤ split_x ≤ width - 1` holds, both crop halves
(`[0, split_x)` and `[split_x, width)`) have positive width, and the two
widths sum to the original width. -/
theorem clamp_invariant_width_ge_two (width : Nat) (detected : Option Nat)
    (h : 2 ≤ width) :
    1 ≤ splitPoint width detected ∧ splitPoint width detected ≤ width - 1
      ∧ 0 < splitPoint width detected ∧ 0 < width - splitPoint width detected
      ∧ splitPoint width detected + (width - splitPoint width detected) = width := by
  cases detected <;> simp only [splitPoint] <;> omega

/-- Witness for the amended C5 at `width = 5`, detected center 3. -/
theorem clamp_invariant_width_ge_two_witness :
    1 ≤ splitPoint 5 (some 3) ∧ splitPoint 5 (some 3) ≤ 5 - 1
      ∧ 0 < splitPoint 5 (some 3) ∧ 0 < 5 - splitPoint 5 (some 3)
      ∧ splitPoint 5 (some 3) + (5 - splitPoint 5 (some 3)) = 5 :=
  clamp_invariant_width_ge_two 5 (some 3) (by decide)

/-- C7 counterexample: for input `photo.jpg` (width 100, no detection) the
file holding the left half, columns `[0, 50)`, is named `photo(2).jpg` —
not `photo(1).jpg` as the claim states. -/
theorem left_half_named_one_refuted :
    processFile "photo" ".jpg" 100 none
        = [⟨"photo(2).jpg", 0, 50⟩, ⟨"photo(1).jpg", 50, 100⟩]
      ∧ "photo(2).jpg" ≠ "photo(1).jpg" := by decide

/-- C7 amended: for every input `name.ext` that the orchestrator splits, the
left half (columns `[0, split_x)`) is written as `name(2).ext` and the right
half (columns `[split_x, width)`) as `name(1).ext`. -/
theorem left_gets_suffix_two_right_gets_suffix_one
    (base_name ext : String) (width : Nat) (detected : Option Nat) :
    processFile base_name ext width detected
      = [⟨base_name ++ "(2)" ++ ext, 0, splitPoint width detected⟩,
         ⟨base_name ++ "(1)" ++ ext, splitPoint width detected, width⟩] := rfl

/-- C8 counterexample: the claim says both processed and skipped counts are
reported, but the loop reports only `processed_count`: a batch with one
success and one skipped file yields the very same report as a batch with a
single success and no skipped file, so no skipped count is reported. -/
theorem report_omits_skipped_count :
    split_jpeg_processed_count [true] = split_jpeg_processed_count [true, false]
      ∧ split_jpeg_processed_count [true, false] = 1 := by decide

/-- C8 amended: `split_jpeg_in_half_by_line` reports only the count of
successfully processed files; a file whose processing raises is skipped
(without any skipped counter) and the loop continues, so the count equals
the number of successful files regardless of interleaved failures, and a
failing file at the head of the batch leaves the report of the remaining
files unchanged. -/
theorem processed_count_ignores_failures (outcomes : List Bool) :
    split_jpeg_processed_count outcomes = (outcomes.filter id).length
      ∧ split_jpeg_processed_count (false :: outcomes)
          = split_jpeg_processed_count outcomes := by
  have key : ∀ (l : List Bool) (a : Nat),
      l.foldl (fun acc ok => if ok then acc + 1 else acc) a = a + (l.filter id).length := by
    intro l
    induction l with
    | nil => intro a; simp
    | cons b l ih =>
        intro a
        cases b with
        | false => simp [List.foldl_cons, ih]
        | true => simp [List.foldl_cons, ih]; omega
  exact ⟨by simpa using key outcomes 0, rfl⟩

/-- C4 counterexample: at `width = 1` (the all-white 1×1 image) no column in
the (empty) search window qualifies and detection returns `None`, but the
orchestrator's final split is the clamped value 1, not
`width // 2 = 0`. -/
theorem fallback_split_claim_fails_at_width_one :
    (∀ x, x < searchEndN 1 (mkRat 2 10) → searchStartN 1 (mkRat 2 10) ≤ x →
        ¬(mkRat 95 100 ≤ columnDensity imgWhiteOne 25 x))
      ∧ find_vertical_black_line_center (some imgWhiteOne) 25 5 (mkRat 95 100)
          (mkRat 2 10) = none
      ∧ splitPoint 1 (find_vertical_black_line_center (some imgWhiteOne) 25 5
          (mkRat 95 100) (mkRat 2 10)) ≠ 1 / 2 := by decide

/-- C4 amended: for every image of width ≥ 2 in which no column of the search
window reaches `min_line_density`, the detector returns `None` and the
orchestrator then splits at `width // 2` (the clamp leaves the geometric
center unchanged once `width ≥ 2`). -/
theorem no_line_fallback_split_center (img : GrayImage)
    (black_threshold min_line_width : Int) (min_line_density frac : Rat)
    (hw : 2 ≤ img.width)
    (h : ∀ x, x < searchEndN img.width frac → searchStartN img.width frac ≤ x →
        ¬(min_line_density ≤ columnDensity img black_threshold x)) :
    find_vertical_black_line_center (some img) black_threshold min_line_width
        min_line_density frac = none
      ∧ splitPoint img.width
          (find_vertical_black_line_center (some img) black_threshold min_line_width
            min_line_density frac)
        = img.width / 2 := by
  have hlen : searchLen img.width frac
      = searchEndN img.width frac - searchStartN img.width frac := rfl
  have hfind : find_vertical_black_line_center (some img) black_threshold
      min_line_width min_line_density frac = none := by
    rw [find_some_eq]
    have hruns : windowRuns img black_threshold min_line_density frac = [] := by
      unfold windowRuns
      apply runsAux_all_false
      intro x hx1 hx2
      have hx3 : x < searchEndN img.width frac := by omega
      simp [colQual, h x hx3 hx1]
    rw [hruns]
    rfl
  refine ⟨hfind, ?_⟩
  rw [hfind]
  simp only [splitPoint]
  omega

/-- Witness for the amended C4: the all-white 10×2 image has no qualifying
column in its search window `[4, 6)`; detection returns `None` and the split
lands at `10 // 2 = 5`. -/
theorem no_line_fallback_split_center_witness :
    find_vertical_black_line_center (some imgWhiteSmall) 25 5 (mkRat 95 100)
        (mkRat 2 10) = none
      ∧ splitPoint imgWhiteSmall.width
          (find_vertical_black_line_center (some imgWhiteSmall) 25 5 (mkRat 95 100)
            (mkRat 2 10))
        = imgWhiteSmall.width / 2 :=
  no_line_fallback_split_center imgWhiteSmall 25 5 (mkRat 95 100) (mkRat 2 10)
    (by decide) (by decide)

/-- C1: whenever the search window holds two or more runs that each reach
`min_line_density` and `min_line_width`, the detector returns the midpoint
of a qualifying run of maximum width, and that run is the leftmost one among
the qualifying runs of that width (runs are listed in left-to-right scan
order, so smaller start column means encountered earlier). -/
theorem find_returns_widest_leftmost_run (img : GrayImage)
    (black_threshold min_line_width : Int) (min_line_density frac : Rat)
    (h : 2 ≤ (qualRuns img black_threshold min_line_width min_line_density frac).length) :
    ∃ r ∈ qualRuns img black_threshold min_line_width min_line_density frac,
      find_vertical_black_line_center (some img) black_threshold min_line_width
          min_line_density frac = some (runMid r)
        ∧ (∀ x ∈ qualRuns img black_threshold min_line_width min_line_density frac,
            runWidthZ x ≤ runWidthZ r)
        ∧ (∀ x ∈ qualRuns img black_threshold min_line_width min_line_density frac,
            runWidthZ x = runWidthZ r → r.1 ≤ x.1) := by
  have hne : qualRuns img black_threshold min_line_width min_line_density frac ≠ [] := by
    intro h0
    rw [h0] at h
    simp at h
  obtain ⟨r0, hr0⟩ := List.exists_mem_of_ne_nil _ hne
  have hr0' := List.mem_filter.mp hr0
  have hw0 : 0 < runWidthZ r0 := runsAux_width_pos _ _ _ r0 hr0'.1
  cases hch : chooseAux min_line_width
      (windowRuns img black_threshold min_line_density frac) 0 with
  | none =>
      exfalso
      exact (chooseAux_eq_none_iff _ _ _).mp hch r0 hr0'.1
        ⟨by simpa using hr0'.2, hw0⟩
  | some r =>
      obtain ⟨l1, l2, hsplit, hqr, _, hl1, hl2⟩ := chooseAux_spec _ _ _ r hch
      have hmemw : r ∈ windowRuns img black_threshold min_line_density frac := by
        rw [hsplit]
        exact List.mem_append_right _ (List.mem_cons_self _ _)
      have hmemq : r ∈ qualRuns img black_threshold min_line_width min_line_density frac :=
        List.mem_filter.mpr ⟨hmemw, by simpa using hqr⟩
      refine ⟨r, hmemq, ?_, ?_, ?_⟩
      · rw [find_some_eq, hch]
        rfl
      · intro x hx
        have hx' := List.mem_filter.mp hx
        have hqx : min_line_width ≤ runWidthZ x := by simpa using hx'.2
        have hxw := hx'.1
        rw [hsplit] at hxw
        rcases List.mem_append.mp hxw with hx1 | hx2
        · exact le_of_lt (hl1 x hx1 hqx)
        · rcases List.mem_cons.mp hx2 with rfl | hx2
          · exact le_refl _
          · exact hl2 x hx2 hqx
      · intro x hx heq
        have hx' := List.mem_filter.mp hx
        have hqx : min_line_width ≤ runWidthZ x := by simpa using hx'.2
        have hxw := hx'.1
        rw [hsplit] at hxw
        rcases List.mem_append.mp hxw with hx1 | hx2
        · exact absurd heq (by have := hl1 x hx1 hqx; omega)
        · rcases List.mem_cons.mp hx2 with rfl | hx2
          · exact le_refl _
          · have hpw : (windowRuns img black_threshold min_line_density frac).Pairwise
                (fun a b => a.1 < b.1) :=
              runsAux_pairwise _ _ _ _ (by simp)
            rw [hsplit] at hpw
            have hrl2 : (r :: l2).Pairwise (fun a b => a.1 < b.1) :=
              hpw.sublist (List.sublist_append_right l1 (r :: l2))
            exact le_of_lt (List.rel_of_pairwise_cons hrl2 hx2)

/-- Witness for C1: `imgTwoRuns` has two qualifying runs in its search
window `[40, 60)` — columns 41–45 (width 5) and 50–55 (width 6) — and the
detector picks the wider one. -/
theorem find_returns_widest_leftmost_run_witness :
    2 ≤ (qualRuns imgTwoRuns 25 5 (mkRat 95 100) (mkRat 2 10)).length
      ∧ ∃ r ∈ qualRuns imgTwoRuns 25 5 (mkRat 95 100) (mkRat 2 10),
          find_vertical_black_line_center (some imgTwoRuns) 25 5 (mkRat 95 100)
              (mkRat 2 10) = some (runMid r)
            ∧ (∀ x ∈ qualRuns imgTwoRuns 25 5 (mkRat 95 100) (mkRat 2 10),
                runWidthZ x ≤ runWidthZ r)
            ∧ (∀ x ∈ qualRuns imgTwoRuns 25 5 (mkRat 95 100) (mkRat 2 10),
                runWidthZ x = runWidthZ r → r.1 ≤ x.1) :=
  ⟨by decide,
   find_returns_widest_leftmost_run imgTwoRuns 25 5 (mkRat 95 100) (mkRat 2 10)
     (by decide)⟩

/-- C10: whenever the detector returns `Found(center_x)`, the center lies
inside the (clamped) search window, `search_start_x ≤ center_x < search_end_x`;
and when the window holds no columns at all the result is `None`. -/
theorem found_center_in_search_window (img : GrayImage)
    (black_threshold min_line_width : Int) (min_line_density frac : Rat) :
    (∀ c, find_vertical_black_line_center (some img) black_threshold min_line_width
            min_line_density frac = some c →
        searchStartN img.width frac ≤ c ∧ c < searchEndN img.width frac)
      ∧ (searchLen img.width frac = 0 →
          find_vertical_black_line_center (some img) black_threshold min_line_width
            min_line_density frac = none) := by
  constructor
  · intro c hc
    rw [find_some_eq] at hc
    cases hch : chooseAux min_line_width
        (windowRuns img black_threshold min_line_density frac) 0 with
    | none =>
        rw [hch] at hc
        simp at hc
    | some r =>
        rw [hch] at hc
        obtain rfl : runMid r = c := by simpa using hc
        obtain ⟨l1, l2, hsplit, _, _, _, _⟩ := chooseAux_spec _ _ _ r hch
        have hmem : r ∈ windowRuns img black_threshold min_line_density frac := by
          rw [hsplit]
          exact List.mem_append_right _ (List.mem_cons_self _ _)
        have hb := runsAux_bounds (colQual img black_threshold min_line_density)
          (searchLen img.width frac) (searchStartN img.width frac) none
          (searchStartN img.width frac) (fun _ => le_refl _) (by simp) r hmem
        have hlen : searchLen img.width frac
            = searchEndN img.width frac - searchStartN img.width frac := rfl
        have hlenpos : 0 < searchLen img.width frac := by
          by_contra h0
          have h0' : searchLen img.width frac = 0 := by omega
          unfold windowRuns at hmem
          rw [h0'] at hmem
          simp [runsAux] at hmem
        unfold runMid
        omega
  · intro h0
    rw [find_some_eq]
    unfold windowRuns
    rw [h0]
    rfl

/-- Witness for C10: on `imgOneRun` (window `[20, 30)`) the detector returns
26, which lies in the window; on `imgTiny` (width 4, `int(4 * 0.2) = 0`, empty
window) it returns `None`. -/
theorem found_center_in_search_window_witness :
    (searchStartN 50 (mkRat 2 10) ≤ 26 ∧ 26 < searchEndN 50 (mkRat 2 10))
      ∧ (searchLen 4 (mkRat 2 10) = 0
          ∧ find_vertical_black_line_center (some imgTiny) 25 5 (mkRat 95 100)
              (mkRat 2 10) = none) :=
  ⟨(found_center_in_search_window imgOneRun 25 5 (mkRat 95 100) (mkRat 2 10)).1 26
      (by decide),
   by decide,
   (found_center_in_search_window imgTiny 25 5 (mkRat 95 100) (mkRat 2 10)).2
      (by decide)⟩

/-- C3: for the 1000×600 grayscale image whose columns 495–504 are entirely
black (density 1.0) and all others white, the detector with default
parameters (threshold 25, minimum width 5, density 0.95, fraction 0.2)
returns `(495 + 504) // 2 = 499`: the search window is `[400, 600)` and the
single qualifying run is 495–504. -/
theorem scenario_1000x600_returns_499 :
    find_vertical_black_line_center (some imgC3) 25 5 (mkRat 95 100) (mkRat 2 10)
      = some 499 := by
  rw [find_some_eq, imgC3_windowRuns]
  rfl

end ImageSplitter
